import Mathlib

/-!
Verification of the shared text-processing utilities (`shared_utils/text_processing.py`).

Strings are embedded as `List Char` (Python strings are sequences of Unicode code
points).  The regular-expression operations used by the code are embedded as
explicit scanners over `List Char`, mirroring CPython `re` semantics for the
specific patterns occurring in the source: `re.sub` scans left to right, replaces
each leftmost non-overlapping match and resumes after it; `re.findall` likewise
collects leftmost non-overlapping matches.  Character classes written with ASCII
ranges (`[A-Z]`, `[a-zA-Z]`, `[0-9]`, `\d`, `\s`, `\w`, case folding) are embedded
with their ASCII meaning.
-/

/-- Whitespace characters as matched by `\s` / `str.split()` / `str.strip()`
(ASCII part). -/
def isSpacePy (c : Char) : Bool :=
  c = ' ' || c = Char.ofNat 9 || c = Char.ofNat 10 || c = Char.ofNat 13 ||
  c = Char.ofNat 11 || c = Char.ofNat 12

/-- Word characters as matched by `\w` (ASCII part), used by the `\b` boundary. -/
def isWordChar (c : Char) : Bool :=
  c.isAlpha || c.isDigit || c = '_'

/-- Characters admitted after `http://` by the URL pattern
`http[s]?://(?:[a-zA-Z]|[0-9]|[$-_@.&+]|[!*\\(\\),]|(?:%[0-9a-fA-F][0-9a-fA-F]))+`.
`[$-_@.&+]` is the code-point range 0x24..0x5F (which already contains `@ . & +`
and `%`, so the percent-escape alternative adds nothing to the matched set). -/
def isUrlChar (c : Char) : Bool :=
  c.isAlpha || c.isDigit || (0x24 ≤ c.toNat && c.toNat ≤ 0x5F) ||
  c = '!' || c = '*' || c = Char.ofNat 92 || c = '(' || c = ')' || c = ','

/-- Code points inside the `emoji_pattern` character class. -/
def isEmojiChar (c : Char) : Bool :=
  (0x1F600 ≤ c.toNat && c.toNat ≤ 0x1F64F) ||
  (0x1F300 ≤ c.toNat && c.toNat ≤ 0x1F5FF) ||
  (0x1F680 ≤ c.toNat && c.toNat ≤ 0x1F6FF) ||
  (0x1F1E0 ≤ c.toNat && c.toNat ≤ 0x1F1FF) ||
  (0x2702 ≤ c.toNat && c.toNat ≤ 0x27B0) ||
  (0x24C2 ≤ c.toNat && c.toNat ≤ 0x1F251)

/-- The 32 characters of Python `string.punctuation`. -/
def punctChars : List Char :=
  ['!', Char.ofNat 34, Char.ofNat 35, '$', Char.ofNat 37, '&', Char.ofNat 39,
   '(', ')', '*', '+', ',', '-', '.', '/', ':', ';', '<', '=', '>', '?', '@',
   '[', Char.ofNat 92, ']', Char.ofNat 94, '_', Char.ofNat 96, Char.ofNat 123,
   '|', Char.ofNat 125, Char.ofNat 126]

/-- Membership in `string.punctuation`. -/
def isPunctPy (c : Char) : Bool :=
  decide (c ∈ punctChars)

/-- ASCII lower-casing, as `str.lower()` acts on ASCII letters. -/
def pyLower (c : Char) : Char :=
  if 65 ≤ c.toNat ∧ c.toNat ≤ 90 then Char.ofNat (c.toNat + 32) else c

/-- Split a list at every separator character satisfying `p`, keeping empty
segments — the behaviour of `str.split(sep)` with an explicit separator. -/
def pySplitP (p : Char → Bool) : List Char → List (List Char)
  | [] => [[]]
  | c :: rest =>
    if p c then [] :: pySplitP p rest
    else
      match pySplitP p rest with
      | [] => [[c]]
      | r :: rs => (c :: r) :: rs

/-- Whitespace tokenisation, the behaviour of `str.split()` with no argument:
split on whitespace runs and drop empty tokens. -/
def pyWords (s : List Char) : List (List Char) :=
  (pySplitP isSpacePy s).filter (fun w => !w.isEmpty)

/-- Remove leading whitespace (`str.lstrip()`). -/
def lstripPy (s : List Char) : List Char :=
  s.dropWhile isSpacePy

/-- Remove trailing whitespace (`str.rstrip()`). -/
def rstripPy (s : List Char) : List Char :=
  (s.reverse.dropWhile isSpacePy).reverse

/-- Remove leading and trailing whitespace (`str.strip()`). -/
def pyStrip (s : List Char) : List Char :=
  rstripPy (lstripPy s)

/-!
Generic `re.sub` scanner.  A matcher `m : List Char → Option Nat` reports, for a
suffix of the text, the length of the (single possible) regex match starting at
its first character, or `none`.  `reSubC m repl skip s` walks the text; `skip`
counts characters of a previously replaced match that must still be consumed.
All matchers used here return lengths ≥ 1, so the scan never loops.
-/

/-- Worker for `reSub`: `skip` characters still belong to the last match. -/
def reSubC (m : List Char → Option Nat) (repl : List Char) : Nat → List Char → List Char
  | _, [] => []
  | skip + 1, _ :: rest => reSubC m repl skip rest
  | 0, c :: rest =>
    match m (c :: rest) with
    | some k => repl ++ reSubC m repl (k - 1) rest
    | none => c :: reSubC m repl 0 rest

/-- Embedding of `re.sub(pattern, repl, s)` for the patterns used in the code. -/
def reSub (m : List Char → Option Nat) (repl : List Char) (s : List Char) : List Char :=
  reSubC m repl 0 s

/-- Worker counting `re.findall` matches for a context-free matcher. -/
def scanCF (m : List Char → Option Nat) : Nat → List Char → Nat
  | _, [] => 0
  | skip + 1, _ :: rest => scanCF m skip rest
  | 0, c :: rest =>
    match m (c :: rest) with
    | some k => 1 + scanCF m (k - 1) rest
    | none => scanCF m 0 rest

/-- Number of `re.findall` matches of a context-free pattern
(`len(re.findall(pattern, s))`). -/
def countCF (m : List Char → Option Nat) (s : List Char) : Nat :=
  scanCF m 0 s

/-- Worker counting matches of a context-sensitive matcher: the matcher also
receives the character preceding the current position (for `\b`). -/
def scanCtx (m : Option Char → List Char → Option Nat) :
    Option Char → Nat → List Char → Nat
  | _, _, [] => 0
  | _, skip + 1, c :: rest => scanCtx m (some c) skip rest
  | prev, 0, c :: rest =>
    match m prev (c :: rest) with
    | some k => 1 + scanCtx m (some c) (k - 1) rest
    | none => scanCtx m (some c) 0 rest

/-- Number of `re.findall` matches of a `\b`-guarded pattern. -/
def countCtx (m : Option Char → List Char → Option Nat) (s : List Char) : Nat :=
  scanCtx m none 0 s

/-- Worker collecting the matched substrings of a context-sensitive matcher. -/
def scanListCtx (m : Option Char → List Char → Option Nat) :
    Option Char → Nat → List Char → List (List Char)
  | _, _, [] => []
  | _, skip + 1, c :: rest => scanListCtx m (some c) skip rest
  | prev, 0, c :: rest =>
    match m prev (c :: rest) with
    | some k => (c :: rest).take k :: scanListCtx m (some c) (k - 1) rest
    | none => scanListCtx m (some c) 0 rest

/-- List of `re.findall` matches of a `\b`-guarded pattern, in scan order. -/
def findAllCtx (m : Option Char → List Char → Option Nat) (s : List Char) :
    List (List Char) :=
  scanListCtx m none 0 s

/-!  Matchers for the individual patterns of the source file. -/

/-- Character test `[^>]` of the tag pattern. -/
def notGt (d : Char) : Bool := !(d = '>')

/-- Matcher for `<[^>]+>` (HTML tag removal). -/
def tagM : List Char → Option Nat
  | [] => none
  | c :: rest =>
    if c = '<' then
      let k := (rest.takeWhile notGt).length
      if 1 ≤ k ∧ k < rest.length then some (k + 2) else none
    else none

/-- Matcher for the URL pattern `http[s]?://C+` with `C = isUrlChar`. -/
def urlM (s : List Char) : Option Nat :=
  if s.take 8 = ['h', 't', 't', 'p', 's', ':', '/', '/'] then
    let run := ((s.drop 8).takeWhile isUrlChar).length
    if run = 0 then none else some (8 + run)
  else if s.take 7 = ['h', 't', 't', 'p', ':', '/', '/'] then
    let run := ((s.drop 7).takeWhile isUrlChar).length
    if run = 0 then none else some (7 + run)
  else none

/-- Matcher for the emoji pattern `[…]+`. -/
def emojiM (s : List Char) : Option Nat :=
  let run := (s.takeWhile isEmojiChar).length
  if run = 0 then none else some run

/-- Matcher for `\s+`. -/
def wsM (s : List Char) : Option Nat :=
  let run := (s.takeWhile isSpacePy).length
  if run = 0 then none else some run

/-- Matcher for `\d+`: a maximal digit run. -/
def numM (s : List Char) : Option Nat :=
  let run := (s.takeWhile Char.isDigit).length
  if run = 0 then none else some run

/-- Matcher for `\d+%`: a maximal digit run immediately followed by `%`
(shorter runs cannot back off onto a digit, so only the full run can match). -/
def pctM (s : List Char) : Option Nat :=
  let run := (s.takeWhile Char.isDigit).length
  if 1 ≤ run ∧ (s.drop run).head? = some '%' then some (run + 1) else none

/-- Matcher for `\$\d+`: a dollar sign followed by a maximal digit run. -/
def priceM : List Char → Option Nat
  | [] => none
  | c :: rest =>
    if c = '$' then
      let run := (rest.takeWhile Char.isDigit).length
      if run = 0 then none else some (run + 1)
    else none

/-- Truth of `\b` between an optional preceding character and an optional
current character (out of bounds counts as a non-word character). -/
def bOk (prev cur : Option Char) : Bool :=
  (prev.elim false isWordChar) != (cur.elim false isWordChar)

/-- Case-insensitive literal match of a (lower-case) pattern word against the
start of the text. -/
def matchCI : List Char → List Char → Bool
  | [], _ => true
  | _ :: _, [] => false
  | p :: ps, t :: ts => pyLower t = p && matchCI ps ts

/-- Matcher for `\b(w1|w2|…)\b` with `re.IGNORECASE`: the leading boundary is
checked at the current position, the alternatives are tried in order, and the
chosen alternative must be followed by a boundary. -/
def wordAltM (words : List (List Char)) (prev : Option Char) (s : List Char) :
    Option Nat :=
  if bOk prev s.head? then
    words.findSome? (fun w =>
      if matchCI w s ∧ bOk ((s.take w.length).getLast?) ((s.drop w.length).head?) then
        some w.length
      else none)
  else none

/-- Matcher for `\b[A-Z]{3,}\b`: a maximal run of ≥ 3 ASCII capitals delimited
by boundaries (a shortened run would abut a capital, so greedy is forced). -/
def capsM (prev : Option Char) (s : List Char) : Option Nat :=
  let run := (s.takeWhile (fun c => 'A' ≤ c ∧ c ≤ 'Z')).length
  if 3 ≤ run ∧ bOk prev s.head? ∧ bOk ((s.take run).getLast?) ((s.drop run).head?) then
    some run
  else none

/-!  Word lists appearing in the source. -/

/-- First CTA word group of `extract_features`. -/
def ctaWords1 : List (List Char) :=
  ["shop".toList, "buy".toList, "get".toList, "try".toList, "learn".toList,
   "discover".toList, "sign up".toList, "download".toList]

/-- Second CTA word group of `extract_features`. -/
def ctaWords2 : List (List Char) :=
  ["now".toList, "today".toList, "click".toList, "tap".toList, "visit".toList]

/-- First CTA phrase group of `extract_cta_text`. -/
def ctaPhrases1 : List (List Char) :=
  ["shop now".toList, "buy today".toList, "get started".toList,
   "learn more".toList, "sign up".toList, "download".toList]

/-- Second CTA phrase group of `extract_cta_text`. -/
def ctaPhrases2 : List (List Char) :=
  ["click here".toList, "tap to".toList, "visit us".toList, "try free".toList,
   "order now".toList]

/-- Third CTA phrase group of `extract_cta_text` (the apostrophe of
`don't miss` is code point 39). -/
def ctaPhrases3 : List (List Char) :=
  ["limited time".toList, "act now".toList,
   "don".toList ++ [Char.ofNat 39] ++ "t miss".toList, "hurry up".toList]

/-- Positive sentiment word groups. -/
def positiveWords1 : List (List Char) :=
  ["amazing".toList, "awesome".toList, "great".toList, "excellent".toList,
   "perfect".toList, "love".toList, "best".toList]

/-- Second positive sentiment word group. -/
def positiveWords2 : List (List Char) :=
  ["incredible".toList, "fantastic".toList, "wonderful".toList,
   "outstanding".toList, "brilliant".toList]

/-- Negative sentiment word groups. -/
def negativeWords1 : List (List Char) :=
  ["terrible".toList, "awful".toList, "worst".toList, "hate".toList,
   "horrible".toList, "bad".toList]

/-- Second negative sentiment word group. -/
def negativeWords2 : List (List Char) :=
  ["disappointing".toList, "frustrating".toList, "annoying".toList,
   "poor".toList]

/-- Urgency sentiment word groups. -/
def urgencyWords1 : List (List Char) :=
  ["urgent".toList, "immediate".toList, "asap".toList, "quickly".toList,
   "fast".toList, "rapid".toList]

/-- Second urgency sentiment word group. -/
def urgencyWords2 : List (List Char) :=
  ["deadline".toList, "expires".toList, "limited".toList, "ending".toList,
   "final".toList]

/-- Stop-word set of `extract_buzzwords`. -/
def common_words : List (List Char) :=
  ["the".toList, "and".toList, "or".toList, "but".toList, "in".toList,
   "on".toList, "at".toList, "to".toList, "for".toList, "of".toList,
   "with".toList, "by".toList]

/-!  The five public operations of `TextProcessor`. -/

/-- Embedding of `TextProcessor.clean_text`: strip HTML tags, strip URLs,
optionally strip emoji, collapse whitespace runs to single spaces, trim. -/
def clean_text (text : List Char) (remove_emojis : Bool) : List Char :=
  if text = [] then []
  else
    let t1 := reSub tagM [] text
    let t2 := reSub urlM [] t1
    let t3 := if remove_emojis then reSub emojiM [] t2 else t2
    let t4 := reSub wsM [' '] t3
    pyStrip t4

/-- Feature record produced by `TextProcessor.extract_features`; field order is
the dictionary insertion order of the source. -/
structure Features where
  word_count : Nat
  char_count : Nat
  sentence_count : Nat
  all_caps_words : Nat
  caps_ratio : ℚ
  exclamation_count : Nat
  question_count : Nat
  emoji_count : Nat
  number_count : Nat
  percentage_mentions : Nat
  price_mentions : Nat
  cta_signals : Nat
deriving DecidableEq, Repr

/-- Embedding of `TextProcessor.extract_features`. -/
def extract_features (text : List Char) : Features where
  word_count := (pyWords text).length
  char_count := text.length
  sentence_count :=
    ((pySplitP (fun c => c = '.') text).filter (fun s => !(pyStrip s).isEmpty)).length
  all_caps_words := countCtx capsM text
  caps_ratio :=
    if text = [] then 0
    else (text.countP Char.isUpper : ℚ) / (text.length : ℚ)
  exclamation_count := text.countP (fun c => c = '!')
  question_count := text.countP (fun c => c = '?')
  emoji_count := countCF emojiM text
  number_count := countCF numM text
  percentage_mentions := countCF pctM text
  price_mentions := countCF priceM text
  cta_signals := countCtx (wordAltM ctaWords1) text + countCtx (wordAltM ctaWords2) text

/-- Embedding of `TextProcessor.extract_buzzwords`: drop punctuation,
lower-case, tokenise, keep long non-stop-words, deduplicate. -/
def extract_buzzwords (text : List Char) (min_length : Nat) : List (List Char) :=
  let cleaned := (text.filter (fun c => !isPunctPy c)).map pyLower
  let words := pyWords cleaned
  let buzzwords := words.filter
    (fun w => decide (min_length ≤ w.length) && !(decide (w ∈ common_words)))
  buzzwords.dedup

/-- Embedding of `TextProcessor.extract_cta_text`: accumulate the matches of
the three phrase groups. -/
def extract_cta_text (text : List Char) : List (List Char) :=
  [ctaPhrases1, ctaPhrases2, ctaPhrases3].foldl
    (fun ctas p => ctas ++ findAllCtx (wordAltM p) text) []

/-- Sentiment indicator counts returned by `analyze_sentiment_indicators`. -/
structure SentimentCounts where
  positive_count : Nat
  negative_count : Nat
  urgency_count : Nat
deriving DecidableEq, Repr

/-- Embedding of `TextProcessor.analyze_sentiment_indicators`. -/
def analyze_sentiment_indicators (text : List Char) : SentimentCounts where
  positive_count :=
    countCtx (wordAltM positiveWords1) text + countCtx (wordAltM positiveWords2) text
  negative_count :=
    countCtx (wordAltM negativeWords1) text + countCtx (wordAltM negativeWords2) text
  urgency_count :=
    countCtx (wordAltM urgencyWords1) text + countCtx (wordAltM urgencyWords2) text

/-- The twelve feature keys in dictionary insertion order. -/
def featureKeys : List String :=
  ["word_count", "char_count", "sentence_count", "all_caps_words", "caps_ratio",
   "exclamation_count", "question_count", "emoji_count", "number_count",
   "percentage_mentions", "price_mentions", "cta_signals"]

/-- The feature dictionary as an association list in insertion order, with all
values read as rationals. -/
def featuresToDict (f : Features) : List (String × ℚ) :=
  [("word_count", (f.word_count : ℚ)), ("char_count", (f.char_count : ℚ)),
   ("sentence_count", (f.sentence_count : ℚ)),
   ("all_caps_words", (f.all_caps_words : ℚ)), ("caps_ratio", f.caps_ratio),
   ("exclamation_count", (f.exclamation_count : ℚ)),
   ("question_count", (f.question_count : ℚ)),
   ("emoji_count", (f.emoji_count : ℚ)), ("number_count", (f.number_count : ℚ)),
   ("percentage_mentions", (f.percentage_mentions : ℚ)),
   ("price_mentions", (f.price_mentions : ℚ)),
   ("cta_signals", (f.cta_signals : ℚ))]

/-- Modelled from the spec (§4.2, claim C3): the number of non-empty segments
obtained by splitting on the literal period character — used to compare the
spec's wording against what the code computes. -/
def specSentenceCount (text : List Char) : Nat :=
  ((pySplitP (fun c => c = '.') text).filter (fun s => !s.isEmpty)).length

/-!  Predicates used to state the claims. -/

/-- Whether some substring of `s` matches the pattern decided by `m` (a match
of `m` starts exactly where a pattern occurrence starts). -/
def hasMatchB (m : List Char → Option Nat) : List Char → Bool
  | [] => false
  | c :: rest => (m (c :: rest)).isSome || hasMatchB m rest

/-!  Basic scanner equations. -/

theorem reSubC_eq_drop (m : List Char → Option Nat) (repl : List Char) :
    ∀ (s : List Char) (skip : Nat), reSubC m repl skip s = reSub m repl (s.drop skip) := by
  intro s
  induction s with
  | nil => intro skip; cases skip <;> rfl
  | cons c rest ih =>
    intro skip
    cases skip with
    | zero => rfl
    | succ j => simpa [reSubC] using ih j

theorem reSub_nil (m : List Char → Option Nat) (repl : List Char) :
    reSub m repl [] = [] := rfl

theorem reSub_cons_none {m : List Char → Option Nat} {repl : List Char}
    {c : Char} {rest : List Char} (h : m (c :: rest) = none) :
    reSub m repl (c :: rest) = c :: reSub m repl rest := by
  simp [reSub, reSubC, h]

theorem reSub_cons_some {m : List Char → Option Nat} {repl : List Char}
    {c : Char} {rest : List Char} {k : Nat} (h : m (c :: rest) = some k) :
    reSub m repl (c :: rest) = repl ++ reSub m repl (rest.drop (k - 1)) := by
  rw [show reSub m repl (c :: rest) =
    (match m (c :: rest) with
     | some j => repl ++ reSubC m repl (j - 1) rest
     | none => c :: reSubC m repl 0 rest) from rfl, h]
  show repl ++ reSubC m repl (k - 1) rest = _
  rw [reSubC_eq_drop]

theorem mem_reSub_del {m : List Char → Option Nat} {a : Char} :
    ∀ {s : List Char} {skip : Nat}, a ∈ reSubC m [] skip s → a ∈ s := by
  intro s
  induction s with
  | nil => intro skip h; simp [reSubC] at h
  | cons c rest ih =>
    intro skip h
    cases skip with
    | succ j => exact List.mem_cons_of_mem _ (ih h)
    | zero =>
      rw [show reSubC m [] 0 (c :: rest) =
        (match m (c :: rest) with
         | some k => [] ++ reSubC m [] (k - 1) rest
         | none => c :: reSubC m [] 0 rest) from rfl] at h
      cases hm : m (c :: rest) with
      | some k => rw [hm] at h; exact List.mem_cons_of_mem _ (ih (by simpa using h))
      | none =>
        rw [hm] at h
        rcases List.mem_cons.mp h with h | h
        · exact h ▸ List.mem_cons_self _ _
        · exact List.mem_cons_of_mem _ (ih h)

theorem mem_reSub_sp {m : List Char → Option Nat} {a : Char} :
    ∀ {s : List Char} {skip : Nat}, a ∈ reSubC m [' '] skip s → a ∈ s ∨ a = ' ' := by
  intro s
  induction s with
  | nil => intro skip h; simp [reSubC] at h
  | cons c rest ih =>
    intro skip h
    cases skip with
    | succ j =>
      rcases ih h with h | h
      · exact Or.inl (List.mem_cons_of_mem _ h)
      · exact Or.inr h
    | zero =>
      rw [show reSubC m [' '] 0 (c :: rest) =
        (match m (c :: rest) with
         | some k => [' '] ++ reSubC m [' '] (k - 1) rest
         | none => c :: reSubC m [' '] 0 rest) from rfl] at h
      cases hm : m (c :: rest) with
      | some k =>
        rw [hm] at h
        rcases List.mem_cons.mp h with h | h
        · exact Or.inr h
        · rcases ih h with h | h
          · exact Or.inl (List.mem_cons_of_mem _ h)
          · exact Or.inr h
      | none =>
        rw [hm] at h
        rcases List.mem_cons.mp h with h | h
        · exact Or.inl (h ▸ List.mem_cons_self _ _)
        · rcases ih h with h | h
          · exact Or.inl (List.mem_cons_of_mem _ h)
          · exact Or.inr h

theorem scanCF_eq_drop (m : List Char → Option Nat) :
    ∀ (s : List Char) (skip : Nat), scanCF m skip s = countCF m (s.drop skip) := by
  intro s
  induction s with
  | nil => intro skip; cases skip <;> rfl
  | cons c rest ih =>
    intro skip
    cases skip with
    | zero => rfl
    | succ j => simpa [scanCF] using ih j

theorem countCF_nil (m : List Char → Option Nat) : countCF m [] = 0 := rfl

theorem countCF_cons_none {m : List Char → Option Nat} {c : Char} {rest : List Char}
    (h : m (c :: rest) = none) : countCF m (c :: rest) = countCF m rest := by
  simp [countCF, scanCF, h]

theorem countCF_cons_some {m : List Char → Option Nat} {c : Char} {rest : List Char}
    {k : Nat} (h : m (c :: rest) = some k) :
    countCF m (c :: rest) = 1 + countCF m (rest.drop (k - 1)) := by
  rw [show countCF m (c :: rest) =
    (match m (c :: rest) with
     | some j => 1 + scanCF m (j - 1) rest
     | none => scanCF m 0 rest) from rfl, h]
  show 1 + scanCF m (k - 1) rest = _
  rw [scanCF_eq_drop]

theorem hasMatchB_cons (m : List Char → Option Nat) (c : Char) (rest : List Char) :
    hasMatchB m (c :: rest) = ((m (c :: rest)).isSome || hasMatchB m rest) := rfl

theorem hasMatchB_tail {m : List Char → Option Nat} {c : Char} {rest : List Char}
    (h : hasMatchB m (c :: rest) = false) : hasMatchB m rest = false := by
  rw [hasMatchB_cons] at h
  exact (Bool.or_eq_false_iff.mp h).2

theorem hasMatchB_head {m : List Char → Option Nat} {c : Char} {rest : List Char}
    (h : hasMatchB m (c :: rest) = false) : m (c :: rest) = none := by
  rw [hasMatchB_cons] at h
  exact Option.not_isSome_iff_eq_none.mp (by
    simpa using (Bool.or_eq_false_iff.mp h).1)

/-!  Small `takeWhile` / `dropWhile` helpers. -/

theorem drop_takeWhile_length (p : Char → Bool) :
    ∀ l : List Char, l.drop (l.takeWhile p).length = l.dropWhile p := by
  intro l
  induction l with
  | nil => rfl
  | cons c rest ih =>
    by_cases h : p c
    · simpa [List.takeWhile_cons, List.dropWhile_cons, h] using ih
    · simp [List.takeWhile_cons, List.dropWhile_cons, h]

theorem dropWhile_head_false {p : Char → Bool} :
    ∀ {l : List Char} {c : Char} {t : List Char}, l.dropWhile p = c :: t → p c = false := by
  intro l
  induction l with
  | nil => intro c t h; simp [List.dropWhile] at h
  | cons a rest ih =>
    intro c t h
    by_cases ha : p a
    · exact ih (by simpa [List.dropWhile_cons, ha] using h)
    · rw [List.dropWhile_cons] at h
      simp [ha] at h
      exact h.1 ▸ (by simpa using ha)

theorem takeWhile_length_pos {p : Char → Bool} :
    ∀ {l : List Char}, 1 ≤ (l.takeWhile p).length → ∃ c t, l = c :: t ∧ p c = true := by
  intro l
  cases l with
  | nil => intro h; simp [List.takeWhile] at h
  | cons c rest =>
    intro h
    by_cases hc : p c
    · exact ⟨c, rest, rfl, hc⟩
    · simp [List.takeWhile_cons, hc] at h

theorem takeWhile_length_lt {p : Char → Bool} :
    ∀ {l : List Char}, (l.takeWhile p).length < l.length →
      ∃ c ∈ l, p c = false := by
  intro l
  induction l with
  | nil => intro h; simp at h
  | cons c rest ih =>
    intro h
    by_cases hc : p c
    · rw [List.takeWhile_cons] at h
      simp only [hc, if_pos] at h
      rcases ih (by simpa using h) with ⟨d, hd, hdp⟩
      exact ⟨d, List.mem_cons_of_mem _ hd, hdp⟩
    · exact ⟨c, List.mem_cons_self _ _, by simpa using hc⟩

/-!  Further scanner equations in worker form. -/

theorem reSubC_succ (m : List Char → Option Nat) (repl : List Char) (j : Nat)
    (c : Char) (rest : List Char) :
    reSubC m repl (j + 1) (c :: rest) = reSubC m repl j rest := rfl

theorem reSubC_zero_none {m : List Char → Option Nat} {repl : List Char}
    {c : Char} {rest : List Char} (h : m (c :: rest) = none) :
    reSubC m repl 0 (c :: rest) = c :: reSubC m repl 0 rest :=
  reSub_cons_none h

theorem reSubC_zero_some {m : List Char → Option Nat} {repl : List Char}
    {c : Char} {rest : List Char} {k : Nat} (h : m (c :: rest) = some k) :
    reSubC m repl 0 (c :: rest) = repl ++ reSubC m repl (k - 1) rest := by
  rw [show reSubC m repl 0 (c :: rest) =
    (match m (c :: rest) with
     | some j => repl ++ reSubC m repl (j - 1) rest
     | none => c :: reSubC m repl 0 rest) from rfl, h]

/-!  The key invariant for HTML-tag freedom: every `<` is at once followed by
`>`, or no `>` occurs after it at all.  Such a string contains no match of
`<[^>]+>`, and the property survives URL/emoji deletion, whitespace collapse
and trimming. -/

/-- Invariant: each `<` is immediately followed by `>`, or sees no later `>`. -/
def P1 : List Char → Prop
  | [] => True
  | c :: l => (c = '<' → l.head? = some '>' ∨ '>' ∉ l) ∧ P1 l

theorem P1_nil : P1 [] := trivial

theorem P1_tail {c : Char} {l : List Char} (h : P1 (c :: l)) : P1 l := h.2

theorem P1_cons {c : Char} {l : List Char}
    (h1 : c = '<' → l.head? = some '>' ∨ '>' ∉ l) (h2 : P1 l) : P1 (c :: l) :=
  ⟨h1, h2⟩

theorem P1_head {c : Char} {l : List Char} (h : P1 (c :: l)) :
    c = '<' → l.head? = some '>' ∨ '>' ∉ l := h.1

/-!  Facts about the tag matcher. -/

theorem tagM_of_ne {c : Char} (rest : List Char) (h : ¬c = '<') :
    tagM (c :: rest) = none := by
  simp [tagM, h]

theorem tagM_none_cases {rest : List Char} (h : tagM ('<' :: rest) = none) :
    rest.head? = some '>' ∨ '>' ∉ rest := by
  simp only [tagM, if_pos rfl] at h
  by_cases hcond : 1 ≤ (rest.takeWhile notGt).length ∧
      (rest.takeWhile notGt).length < rest.length
  · rw [if_pos hcond] at h; cases h
  · push_neg at hcond
    by_cases h1 : 1 ≤ (rest.takeWhile notGt).length
    · right
      have heq : rest.takeWhile notGt = rest :=
        (List.takeWhile_prefix _).eq_of_length
          (Nat.le_antisymm (List.takeWhile_prefix _).length_le (hcond h1))
      intro hmem
      have := List.takeWhile_eq_self_iff.mp heq '>' hmem
      simp [notGt] at this
    · cases rest with
      | nil => right; simp
      | cons d t =>
        rw [List.takeWhile_cons] at h1
        by_cases hd : notGt d = true
        · rw [if_pos hd] at h1; simp at h1
        · left
          have hdgt : d = '>' := by simpa [notGt] using hd
          simp [hdgt]

theorem tagM_some_shape {c : Char} {rest : List Char} {k : Nat}
    (h : tagM (c :: rest) = some k) :
    c = '<' ∧ 1 ≤ (rest.takeWhile notGt).length ∧
      (rest.takeWhile notGt).length < rest.length := by
  by_cases hc : c = '<'
  · subst hc
    simp only [tagM, if_pos rfl] at h
    by_cases hcond : 1 ≤ (rest.takeWhile notGt).length ∧
        (rest.takeWhile notGt).length < rest.length
    · exact ⟨rfl, hcond.1, hcond.2⟩
    · rw [if_neg hcond] at h; cases h
  · rw [tagM_of_ne rest hc] at h
    cases h

/-- The tag-removal pass establishes the invariant `P1`. -/
theorem P1_reSub_tag : ∀ (s : List Char) (skip : Nat), P1 (reSubC tagM [] skip s) := by
  intro s
  induction s with
  | nil => intro skip; cases skip <;> exact P1_nil
  | cons c rest ih =>
    intro skip
    cases skip with
    | succ j => rw [reSubC_succ]; exact ih j
    | zero =>
      cases hm : tagM (c :: rest) with
      | some k =>
        rw [reSubC_zero_some hm]
        simpa using ih (k - 1)
      | none =>
        rw [reSubC_zero_none hm]
        refine P1_cons ?_ (ih 0)
        intro hc
        subst hc
        rcases tagM_none_cases hm with h | h
        · cases rest with
          | nil => simp at h
          | cons d t =>
            simp at h
            subst h
            left
            rw [reSubC_zero_none (tagM_of_ne t (by decide))]
            rfl
        · right
          intro hmem
          exact h (mem_reSub_del hmem)

/-- Deletion by a matcher that never fires on a string headed by `>` preserves
the invariant `P1`. -/
theorem P1_reSub_del {m : List Char → Option Nat}
    (hgt : ∀ l : List Char, m ('>' :: l) = none) :
    ∀ (s : List Char) (skip : Nat), P1 s → P1 (reSubC m [] skip s) := by
  intro s
  induction s with
  | nil => intro skip _; cases skip <;> exact P1_nil
  | cons c rest ih =>
    intro skip hp
    cases skip with
    | succ j => rw [reSubC_succ]; exact ih j (P1_tail hp)
    | zero =>
      cases hm : m (c :: rest) with
      | some k =>
        rw [reSubC_zero_some hm]
        simpa using ih (k - 1) (P1_tail hp)
      | none =>
        rw [reSubC_zero_none hm]
        refine P1_cons ?_ (ih 0 (P1_tail hp))
        intro hc
        rcases P1_head hp hc with h | h
        · cases rest with
          | nil => simp at h
          | cons d t =>
            simp at h
            subst h
            left
            rw [reSubC_zero_none (hgt t)]
            rfl
        · right
          intro hmem
          exact h (mem_reSub_del hmem)

/-- Whitespace collapse (replacement by a single space) preserves `P1`. -/
theorem P1_reSub_ws :
    ∀ (s : List Char) (skip : Nat), P1 s → P1 (reSubC wsM [' '] skip s) := by
  intro s
  induction s with
  | nil => intro skip _; cases skip <;> exact P1_nil
  | cons c rest ih =>
    intro skip hp
    cases skip with
    | succ j => rw [reSubC_succ]; exact ih j (P1_tail hp)
    | zero =>
      cases hm : wsM (c :: rest) with
      | some k =>
        rw [reSubC_zero_some hm]
        refine P1_cons (by simp) (ih (k - 1) (P1_tail hp))
      | none =>
        rw [reSubC_zero_none hm]
        refine P1_cons ?_ (ih 0 (P1_tail hp))
        intro hc
        rcases P1_head hp hc with h | h
        · cases rest with
          | nil => simp at h
          | cons d t =>
            simp at h
            subst h
            left
            rw [reSubC_zero_none (show wsM ('>' :: t) = none by
              simp [wsM, List.takeWhile_cons, isSpacePy])]
            rfl
        · right
          intro hmem
          rcases mem_reSub_sp hmem with h' | h'
          · exact h h'
          · cases h'

/-!  Closure properties of `P1` under trimming, and tag-freedom from `P1`. -/

theorem P1_append_left {v : List Char} :
    ∀ {a : List Char}, P1 (a ++ v) → P1 a := by
  intro a
  induction a with
  | nil => intro _; exact P1_nil
  | cons c a' ih =>
    intro h
    refine P1_cons ?_ (ih (P1_tail h))
    intro hc
    rcases P1_head h hc with hh | hh
    · cases a' with
      | nil => right; simp
      | cons d t =>
        simp at hh
        subst hh
        left; rfl
    · right
      intro hmem
      exact hh (List.mem_append_left v hmem)

theorem P1_dropWhile (p : Char → Bool) :
    ∀ {s : List Char}, P1 s → P1 (s.dropWhile p) := by
  intro s
  induction s with
  | nil => intro _; exact P1_nil
  | cons c rest ih =>
    intro h
    rw [List.dropWhile_cons]
    by_cases hp : p c
    · simpa [hp] using ih (P1_tail h)
    · simpa [hp] using h

theorem dropWhile_decomp (p : Char → Bool) :
    ∀ l : List Char, ∃ u, l = u ++ l.dropWhile p := by
  intro l
  induction l with
  | nil => exact ⟨[], rfl⟩
  | cons c rest ih =>
    rw [List.dropWhile_cons]
    by_cases hp : p c
    · obtain ⟨u, hu⟩ := ih
      exact ⟨c :: u, by simp [hp, ← hu]⟩
    · exact ⟨[], by simp [hp]⟩

theorem rstripPy_decomp (s : List Char) : ∃ v, s = rstripPy s ++ v := by
  obtain ⟨u, hu⟩ := dropWhile_decomp isSpacePy s.reverse
  refine ⟨u.reverse, ?_⟩
  have := congrArg List.reverse hu
  simpa [rstripPy] using this

theorem P1_rstrip {s : List Char} (h : P1 s) : P1 (rstripPy s) := by
  obtain ⟨v, hv⟩ := rstripPy_decomp s
  exact P1_append_left (hv ▸ h)

theorem P1_pyStrip {s : List Char} (h : P1 s) : P1 (pyStrip s) :=
  P1_rstrip (P1_dropWhile isSpacePy h)

/-- A string satisfying `P1` contains no match of `<[^>]+>`. -/
theorem P1_noTag : ∀ {s : List Char}, P1 s → hasMatchB tagM s = false := by
  intro s
  induction s with
  | nil => intro _; rfl
  | cons c rest ih =>
    intro h
    rw [hasMatchB_cons]
    have htail := ih (P1_tail h)
    have hhead : tagM (c :: rest) = none := by
      cases hm : tagM (c :: rest) with
      | none => rfl
      | some k =>
        obtain ⟨hc, h1, h2⟩ := tagM_some_shape hm
        exfalso
        rcases P1_head h hc with hh | hh
        · obtain ⟨d, t, hdt, hd⟩ := takeWhile_length_pos h1
          rw [hdt] at hh
          simp at hh
          rw [hh] at hd
          simp [notGt] at hd
        · obtain ⟨d, hdm, hd⟩ := takeWhile_length_lt h2
          have : d = '>' := by simpa [notGt] using hd
          exact hh (this ▸ hdm)
    rw [hhead, htail]
    rfl

/-!  URL-freedom of the URL-removal pass.  All characters of a URL match lie in
`isUrlChar` (including the scheme characters), the character following a greedy
match does not, and deletions only shorten the text, so no new match can arise. -/

theorem urlM_of_ne_h {c : Char} (l : List Char) (h : ¬c = 'h') :
    urlM (c :: l) = none := by
  have h8 : ¬((c :: l).take 8 = ['h', 't', 't', 'p', 's', ':', '/', '/']) := by
    intro heq; cases l <;> simp_all
  have h7 : ¬((c :: l).take 7 = ['h', 't', 't', 'p', ':', '/', '/']) := by
    intro heq; cases l <;> simp_all
  unfold urlM
  rw [if_neg h8, if_neg h7]

theorem urlM_not_space {c : Char} (l : List Char) (h : isSpacePy c = true) :
    urlM (c :: l) = none := by
  refine urlM_of_ne_h l ?_
  intro hc
  subst hc
  simp [isSpacePy] at h

theorem urlChar_not_space {a : Char} (h : isUrlChar a = true) : isSpacePy a = false := by
  by_contra h'
  rw [Bool.not_eq_false] at h'
  simp [isSpacePy] at h'
  rcases h' with ((((h' | h') | h') | h') | h') | h' <;>
    (subst h'; exact absurd h (by decide))

theorem urlM_some_shape {s : List Char} (h : urlM s ≠ none) :
    ∃ x t, isUrlChar x = true ∧
      (s = 'h' :: 't' :: 't' :: 'p' :: ':' :: '/' :: '/' :: x :: t ∨
       s = 'h' :: 't' :: 't' :: 'p' :: 's' :: ':' :: '/' :: '/' :: x :: t) := by
  by_cases h8 : s.take 8 = ['h', 't', 't', 'p', 's', ':', '/', '/']
  · have hrun : ((s.drop 8).takeWhile isUrlChar).length ≠ 0 := by
      intro h0; exact h (by simp [urlM, h8, h0])
    obtain ⟨x, t, hxt, hx⟩ := takeWhile_length_pos (Nat.one_le_iff_ne_zero.mpr hrun)
    refine ⟨x, t, hx, Or.inr ?_⟩
    have hs := List.take_append_drop 8 s
    rw [h8, hxt] at hs
    simpa using hs.symm
  · by_cases h7 : s.take 7 = ['h', 't', 't', 'p', ':', '/', '/']
    · have hrun : ((s.drop 7).takeWhile isUrlChar).length ≠ 0 := by
        intro h0; exact h (by simp [urlM, h8, h7, h0])
      obtain ⟨x, t, hxt, hx⟩ := takeWhile_length_pos (Nat.one_le_iff_ne_zero.mpr hrun)
      refine ⟨x, t, hx, Or.inl ?_⟩
      have hs := List.take_append_drop 7 s
      rw [h7, hxt] at hs
      simpa using hs.symm
    · exact absurd (by simp [urlM, h8, h7]) h

theorem urlM_fires_http (x : Char) (t : List Char) (hx : isUrlChar x = true) :
    urlM ('h' :: 't' :: 't' :: 'p' :: ':' :: '/' :: '/' :: x :: t) ≠ none := by
  have hne : ¬(('h' :: 't' :: 't' :: 'p' :: ':' :: '/' :: '/' :: x :: t).take 8 =
      ['h', 't', 't', 'p', 's', ':', '/', '/']) := by
    rw [show ('h' :: 't' :: 't' :: 'p' :: ':' :: '/' :: '/' :: x :: t).take 8 =
      ['h', 't', 't', 'p', ':', '/', '/', x] from rfl]
    intro heq
    simp only [List.cons.injEq] at heq
    exact absurd heq.2.2.2.2.1 (by decide)
  have h7 : ('h' :: 't' :: 't' :: 'p' :: ':' :: '/' :: '/' :: x :: t).take 7 =
      ['h', 't', 't', 'p', ':', '/', '/'] := rfl
  have hdrop : ('h' :: 't' :: 't' :: 'p' :: ':' :: '/' :: '/' :: x :: t).drop 7 = x :: t := rfl
  simp [urlM, hne, h7, hdrop, List.takeWhile_cons, hx]

theorem urlM_fires_https (x : Char) (t : List Char) (hx : isUrlChar x = true) :
    urlM ('h' :: 't' :: 't' :: 'p' :: 's' :: ':' :: '/' :: '/' :: x :: t) ≠ none := by
  have h8 : ('h' :: 't' :: 't' :: 'p' :: 's' :: ':' :: '/' :: '/' :: x :: t).take 8 =
      ['h', 't', 't', 'p', 's', ':', '/', '/'] := rfl
  have hdrop : ('h' :: 't' :: 't' :: 'p' :: 's' :: ':' :: '/' :: '/' :: x :: t).drop 8 = x :: t := rfl
  simp [urlM, h8, hdrop, List.takeWhile_cons, hx]

theorem urlM_some_ge {s : List Char} {k : Nat} (h : urlM s = some k) : 1 ≤ k := by
  by_cases h8 : s.take 8 = ['h', 't', 't', 'p', 's', ':', '/', '/']
  · by_cases hr : ((s.drop 8).takeWhile isUrlChar).length = 0
    · simp [urlM, h8, hr] at h
    · simp [urlM, h8, hr] at h
      omega
  · by_cases h7 : s.take 7 = ['h', 't', 't', 'p', ':', '/', '/']
    · by_cases hr : ((s.drop 7).takeWhile isUrlChar).length = 0
      · simp [urlM, h8, h7, hr] at h
      · simp [urlM, h8, h7, hr] at h
        omega
    · simp [urlM, h8, h7] at h

theorem urlM_greedy {s : List Char} {k : Nat} (h : urlM s = some k) :
    s.drop k = [] ∨ ∃ d t, s.drop k = d :: t ∧ isUrlChar d = false := by
  have key : ∀ n : Nat, s.drop (n + ((s.drop n).takeWhile isUrlChar).length) = [] ∨
      ∃ d t, s.drop (n + ((s.drop n).takeWhile isUrlChar).length) = d :: t ∧
        isUrlChar d = false := by
    intro n
    have hdd : s.drop (n + ((s.drop n).takeWhile isUrlChar).length) =
        (s.drop n).dropWhile isUrlChar := by
      rw [← List.drop_drop, drop_takeWhile_length]
    rw [hdd]
    cases hd : (s.drop n).dropWhile isUrlChar with
    | nil => exact Or.inl rfl
    | cons d t => exact Or.inr ⟨d, t, rfl, dropWhile_head_false hd⟩
  by_cases h8 : s.take 8 = ['h', 't', 't', 'p', 's', ':', '/', '/']
  · by_cases hr : ((s.drop 8).takeWhile isUrlChar).length = 0
    · simp [urlM, h8, hr] at h
    · have hk : k = 8 + ((s.drop 8).takeWhile isUrlChar).length := by
        simp [urlM, h8, hr] at h
        omega
      rw [hk]
      exact key 8
  · by_cases h7 : s.take 7 = ['h', 't', 't', 'p', ':', '/', '/']
    · by_cases hr : ((s.drop 7).takeWhile isUrlChar).length = 0
      · simp [urlM, h8, h7, hr] at h
      · have hk : k = 7 + ((s.drop 7).takeWhile isUrlChar).length := by
          simp [urlM, h8, h7, hr] at h
          omega
        rw [hk]
        exact key 7
    · simp [urlM, h8, h7] at h

/-- A prefix of the URL-deleted output consisting only of URL characters is
already a prefix of the corresponding input suffix: deletions end just before a
non-URL character, so they cannot assemble such a prefix. -/
theorem url_seed_transfer :
    ∀ (s P : List Char) (skip : Nat), (∀ a ∈ P, isUrlChar a = true) →
      P <+: reSubC urlM [] skip s → P <+: s.drop skip := by
  intro s
  induction s with
  | nil =>
    intro P skip _ hpre
    have hnil : reSubC urlM [] skip [] = [] := by cases skip <;> rfl
    rw [hnil] at hpre
    rw [List.prefix_nil.mp hpre]
    exact List.nil_prefix
  | cons c rest ih =>
    intro P skip hP hpre
    cases skip with
    | succ j =>
      rw [reSubC_succ] at hpre
      rw [List.drop_succ_cons]
      exact ih P j hP hpre
    | zero =>
      rw [List.drop_zero]
      cases hm : urlM (c :: rest) with
      | none =>
        rw [reSubC_zero_none hm] at hpre
        cases P with
        | nil => exact List.nil_prefix
        | cons q P' =>
          rw [List.cons_prefix_cons] at hpre
          obtain ⟨rfl, hpre'⟩ := hpre
          have := ih P' 0 (fun a ha => hP a (List.mem_cons_of_mem _ ha)) hpre'
          rw [List.drop_zero] at this
          exact List.cons_prefix_cons.mpr ⟨rfl, this⟩
      | some k =>
        rw [reSubC_zero_some hm, List.nil_append] at hpre
        have hge := urlM_some_ge hm
        obtain ⟨k', rfl⟩ : ∃ k', k = k' + 1 := ⟨k - 1, by omega⟩
        have heq : reSubC urlM [] (k' + 1 - 1) rest = reSubC urlM [] 0 (rest.drop k') := by
          rw [Nat.add_sub_cancel]
          exact reSubC_eq_drop urlM [] rest k'
        rw [heq] at hpre
        have hdrop : (c :: rest).drop (k' + 1) = rest.drop k' := List.drop_succ_cons
        rcases urlM_greedy hm with hnil | ⟨d, t, hdt, hdC⟩
        · rw [hdrop] at hnil
          rw [hnil] at hpre
          rw [show reSubC urlM [] 0 ([] : List Char) = [] from rfl] at hpre
          rw [List.prefix_nil.mp hpre]
          exact List.nil_prefix
        · rw [hdrop] at hdt
          rw [hdt] at hpre
          have hdnone : urlM (d :: t) = none := by
            refine urlM_of_ne_h t ?_
            intro hdh
            rw [hdh] at hdC
            exact absurd hdC (by decide)
          rw [reSubC_zero_none hdnone] at hpre
          cases P with
          | nil => exact List.nil_prefix
          | cons q P' =>
            rw [List.cons_prefix_cons] at hpre
            obtain ⟨rfl, -⟩ := hpre
            have hqC := hP q (List.mem_cons_self _ _)
            simp [hdC] at hqC

/-- If no URL match starts at the head position, none starts there after the
URL-removal pass has rewritten the tail. -/
theorem urlM_stable {c : Char} {rest : List Char} (hm : urlM (c :: rest) = none) :
    urlM (c :: reSubC urlM [] 0 rest) = none := by
  by_contra hne
  obtain ⟨x, t, hx, hcase⟩ := urlM_some_shape hne
  rcases hcase with hcase | hcase
  · injection hcase with hc htl
    have hseed : (['t', 't', 'p', ':', '/', '/'] ++ [x]) <+: reSubC urlM [] 0 rest := by
      rw [htl]
      exact ⟨t, by simp⟩
    have hchars : ∀ a ∈ (['t', 't', 'p', ':', '/', '/'] ++ [x]), isUrlChar a = true := by
      intro a ha
      rw [List.mem_append] at ha
      rcases ha with ha | ha
      · fin_cases ha <;> decide
      · simp at ha
        rw [ha]
        exact hx
    have htrans := url_seed_transfer rest _ 0 hchars hseed
    rw [List.drop_zero] at htrans
    obtain ⟨t', ht'⟩ := htrans
    have hform : c :: rest = 'h' :: 't' :: 't' :: 'p' :: ':' :: '/' :: '/' :: x :: t' := by
      rw [hc, ← ht']
      simp
    rw [hform] at hm
    exact urlM_fires_http x t' hx hm
  · injection hcase with hc htl
    have hseed : (['t', 't', 'p', 's', ':', '/', '/'] ++ [x]) <+: reSubC urlM [] 0 rest := by
      rw [htl]
      exact ⟨t, by simp⟩
    have hchars : ∀ a ∈ (['t', 't', 'p', 's', ':', '/', '/'] ++ [x]), isUrlChar a = true := by
      intro a ha
      rw [List.mem_append] at ha
      rcases ha with ha | ha
      · fin_cases ha <;> decide
      · simp at ha
        rw [ha]
        exact hx
    have htrans := url_seed_transfer rest _ 0 hchars hseed
    rw [List.drop_zero] at htrans
    obtain ⟨t', ht'⟩ := htrans
    have hform : c :: rest = 'h' :: 't' :: 't' :: 'p' :: 's' :: ':' :: '/' :: '/' :: x :: t' := by
      rw [hc, ← ht']
      simp
    rw [hform] at hm
    exact urlM_fires_https x t' hx hm

/-- The URL-removal pass leaves no URL match in its output. -/
theorem noUrl_reSub_url :
    ∀ (s : List Char) (skip : Nat), hasMatchB urlM (reSubC urlM [] skip s) = false := by
  intro s
  induction s with
  | nil => intro skip; cases skip <;> rfl
  | cons c rest ih =>
    intro skip
    cases skip with
    | succ j => rw [reSubC_succ]; exact ih j
    | zero =>
      cases hm : urlM (c :: rest) with
      | some k =>
        rw [reSubC_zero_some hm]
        simpa using ih (k - 1)
      | none =>
        rw [reSubC_zero_none hm, hasMatchB_cons, urlM_stable hm]
        simpa using ih 0

/-!  Whitespace collapse and trimming preserve URL-freedom: all characters of a
URL match are non-whitespace, and the collapse only deletes whitespace or
inserts single spaces. -/

theorem wsM_of_not_space {c : Char} (rest : List Char) (h : isSpacePy c = false) :
    wsM (c :: rest) = none := by
  simp [wsM, List.takeWhile_cons, h]

theorem ws_seed_transfer :
    ∀ (s P : List Char) (skip : Nat), (∀ a ∈ P, isSpacePy a = false) →
      P <+: reSubC wsM [' '] skip s → P <+: s.drop skip := by
  intro s
  induction s with
  | nil =>
    intro P skip _ hpre
    have hnil : reSubC wsM [' '] skip [] = [] := by cases skip <;> rfl
    rw [hnil] at hpre
    rw [List.prefix_nil.mp hpre]
    exact List.nil_prefix
  | cons c rest ih =>
    intro P skip hP hpre
    cases skip with
    | succ j =>
      rw [reSubC_succ] at hpre
      rw [List.drop_succ_cons]
      exact ih P j hP hpre
    | zero =>
      rw [List.drop_zero]
      cases hm : wsM (c :: rest) with
      | none =>
        rw [reSubC_zero_none hm] at hpre
        cases P with
        | nil => exact List.nil_prefix
        | cons q P' =>
          rw [List.cons_prefix_cons] at hpre
          obtain ⟨rfl, hpre'⟩ := hpre
          have := ih P' 0 (fun a ha => hP a (List.mem_cons_of_mem _ ha)) hpre'
          rw [List.drop_zero] at this
          exact List.cons_prefix_cons.mpr ⟨rfl, this⟩
      | some k =>
        rw [reSubC_zero_some hm] at hpre
        cases P with
        | nil => exact List.nil_prefix
        | cons q P' =>
          rw [show ([' '] ++ reSubC wsM [' '] (k - 1) rest) =
            ' ' :: reSubC wsM [' '] (k - 1) rest from rfl] at hpre
          rw [List.cons_prefix_cons] at hpre
          obtain ⟨rfl, -⟩ := hpre
          have hqs := hP ' ' (List.mem_cons_self _ _)
          simp [isSpacePy] at hqs

theorem urlM_stable_ws {c : Char} {rest : List Char} (hm : urlM (c :: rest) = none) :
    urlM (c :: reSubC wsM [' '] 0 rest) = none := by
  by_contra hne
  obtain ⟨x, t, hx, hcase⟩ := urlM_some_shape hne
  rcases hcase with hcase | hcase
  · injection hcase with hc htl
    have hseed : (['t', 't', 'p', ':', '/', '/'] ++ [x]) <+: reSubC wsM [' '] 0 rest := by
      rw [htl]
      exact ⟨t, by simp⟩
    have hchars : ∀ a ∈ (['t', 't', 'p', ':', '/', '/'] ++ [x]), isSpacePy a = false := by
      intro a ha
      rw [List.mem_append] at ha
      rcases ha with ha | ha
      · fin_cases ha <;> decide
      · simp at ha
        rw [ha]
        exact urlChar_not_space hx
    have htrans := ws_seed_transfer rest _ 0 hchars hseed
    rw [List.drop_zero] at htrans
    obtain ⟨t', ht'⟩ := htrans
    have hform : c :: rest = 'h' :: 't' :: 't' :: 'p' :: ':' :: '/' :: '/' :: x :: t' := by
      rw [hc, ← ht']
      simp
    rw [hform] at hm
    exact urlM_fires_http x t' hx hm
  · injection hcase with hc htl
    have hseed : (['t', 't', 'p', 's', ':', '/', '/'] ++ [x]) <+: reSubC wsM [' '] 0 rest := by
      rw [htl]
      exact ⟨t, by simp⟩
    have hchars : ∀ a ∈ (['t', 't', 'p', 's', ':', '/', '/'] ++ [x]), isSpacePy a = false := by
      intro a ha
      rw [List.mem_append] at ha
      rcases ha with ha | ha
      · fin_cases ha <;> decide
      · simp at ha
        rw [ha]
        exact urlChar_not_space hx
    have htrans := ws_seed_transfer rest _ 0 hchars hseed
    rw [List.drop_zero] at htrans
    obtain ⟨t', ht'⟩ := htrans
    have hform : c :: rest = 'h' :: 't' :: 't' :: 'p' :: 's' :: ':' :: '/' :: '/' :: x :: t' := by
      rw [hc, ← ht']
      simp
    rw [hform] at hm
    exact urlM_fires_https x t' hx hm

theorem noUrl_reSub_ws :
    ∀ (s : List Char) (skip : Nat), hasMatchB urlM s = false →
      hasMatchB urlM (reSubC wsM [' '] skip s) = false := by
  intro s
  induction s with
  | nil => intro skip _; cases skip <;> rfl
  | cons c rest ih =>
    intro skip h
    cases skip with
    | succ j => rw [reSubC_succ]; exact ih j (hasMatchB_tail h)
    | zero =>
      cases hm : wsM (c :: rest) with
      | some k =>
        rw [reSubC_zero_some hm]
        rw [show ([' '] ++ reSubC wsM [' '] (k - 1) rest) =
          ' ' :: reSubC wsM [' '] (k - 1) rest from rfl]
        rw [hasMatchB_cons, urlM_not_space _ (by decide)]
        simpa using ih (k - 1) (hasMatchB_tail h)
      | none =>
        rw [reSubC_zero_none hm, hasMatchB_cons, urlM_stable_ws (hasMatchB_head h)]
        simpa using ih 0 (hasMatchB_tail h)

theorem urlM_mono {u : List Char} (v : List Char) (h : urlM u ≠ none) :
    urlM (u ++ v) ≠ none := by
  obtain ⟨x, t, hx, hcase⟩ := urlM_some_shape h
  rcases hcase with hcase | hcase
  · rw [hcase]
    rw [show (('h' :: 't' :: 't' :: 'p' :: ':' :: '/' :: '/' :: x :: t) ++ v) =
      'h' :: 't' :: 't' :: 'p' :: ':' :: '/' :: '/' :: x :: (t ++ v) from rfl]
    exact urlM_fires_http x (t ++ v) hx
  · rw [hcase]
    rw [show (('h' :: 't' :: 't' :: 'p' :: 's' :: ':' :: '/' :: '/' :: x :: t) ++ v) =
      'h' :: 't' :: 't' :: 'p' :: 's' :: ':' :: '/' :: '/' :: x :: (t ++ v) from rfl]
    exact urlM_fires_https x (t ++ v) hx

theorem noUrl_append_left {v : List Char} :
    ∀ {a : List Char}, hasMatchB urlM (a ++ v) = false → hasMatchB urlM a = false := by
  intro a
  induction a with
  | nil => intro _; rfl
  | cons c a' ih =>
    intro h
    rw [show ((c :: a') ++ v) = c :: (a' ++ v) from rfl] at h
    have hhead : urlM (c :: a') = none := by
      by_contra hne
      have := urlM_mono v hne
      rw [show ((c :: a') ++ v) = c :: (a' ++ v) from rfl] at this
      exact this (hasMatchB_head h)
    rw [hasMatchB_cons, hhead]
    simpa using ih (hasMatchB_tail h)

theorem noUrl_dropWhile (p : Char → Bool) :
    ∀ {s : List Char}, hasMatchB urlM s = false →
      hasMatchB urlM (s.dropWhile p) = false := by
  intro s
  induction s with
  | nil => intro _; rfl
  | cons c rest ih =>
    intro h
    rw [List.dropWhile_cons]
    by_cases hp : p c
    · simpa [hp] using ih (hasMatchB_tail h)
    · simpa [hp] using h

theorem noUrl_pyStrip {s : List Char} (h : hasMatchB urlM s = false) :
    hasMatchB urlM (pyStrip s) = false := by
  have h1 : hasMatchB urlM (lstripPy s) = false := noUrl_dropWhile isSpacePy h
  obtain ⟨v, hv⟩ := rstripPy_decomp (lstripPy s)
  exact noUrl_append_left (hv ▸ h1)

/-!  Pipeline equations for `clean_text` and the freedom results. -/

theorem emojiM_of_not {c : Char} (rest : List Char) (h : isEmojiChar c = false) :
    emojiM (c :: rest) = none := by
  simp [emojiM, List.takeWhile_cons, h]

theorem clean_text_nil (f : Bool) : clean_text [] f = [] := rfl

theorem clean_text_eq_false (text : List Char) (h : ¬text = []) :
    clean_text text false =
      pyStrip (reSub wsM [' '] (reSub urlM [] (reSub tagM [] text))) := by
  unfold clean_text
  rw [if_neg h]
  rfl

theorem clean_text_eq_true (text : List Char) (h : ¬text = []) :
    clean_text text true =
      pyStrip (reSub wsM [' '] (reSub emojiM [] (reSub urlM [] (reSub tagM [] text)))) := by
  unfold clean_text
  rw [if_neg h]
  rfl

/-- The cleaned text (any emoji flag) contains no match of the tag pattern. -/
theorem clean_noTag (text : List Char) (f : Bool) :
    hasMatchB tagM (clean_text text f) = false := by
  by_cases ht : text = []
  · subst ht
    rw [clean_text_nil]
    rfl
  · have hcore : P1 (reSub urlM [] (reSub tagM [] text)) :=
      P1_reSub_del (fun l => urlM_of_ne_h l (by decide)) _ 0 (P1_reSub_tag text 0)
    cases f with
    | false =>
      rw [clean_text_eq_false text ht]
      exact P1_noTag (P1_pyStrip (P1_reSub_ws _ 0 hcore))
    | true =>
      rw [clean_text_eq_true text ht]
      refine P1_noTag (P1_pyStrip (P1_reSub_ws _ 0 ?_))
      exact P1_reSub_del (fun l => emojiM_of_not l (by decide)) _ 0 hcore

/-- The cleaned text (default emoji flag) contains no match of the URL pattern. -/
theorem clean_noUrl (text : List Char) :
    hasMatchB urlM (clean_text text false) = false := by
  by_cases ht : text = []
  · subst ht
    rw [clean_text_nil]
    rfl
  · rw [clean_text_eq_false text ht]
    exact noUrl_pyStrip (noUrl_reSub_ws _ 0 (noUrl_reSub_url (reSub tagM [] text) 0))

/-!  Idempotence machinery: identity of the passes on already-clean input. -/

/-- A substitution pass is the identity when no match occurs anywhere. -/
theorem reSub_id {m : List Char → Option Nat} {repl : List Char} :
    ∀ {s : List Char}, hasMatchB m s = false → reSub m repl s = s := by
  intro s
  induction s with
  | nil => intro _; rfl
  | cons c rest ih =>
    intro h
    rw [reSub_cons_none (hasMatchB_head h), ih (hasMatchB_tail h)]

theorem wsM_some_eq {s : List Char} {k : Nat} (h : wsM s = some k) :
    k = (s.takeWhile isSpacePy).length := by
  by_cases hr : (s.takeWhile isSpacePy).length = 0
  · simp [wsM, hr] at h
  · simp [wsM, hr] at h
    omega

theorem wsM_none_head {c : Char} {rest : List Char} (h : wsM (c :: rest) = none) :
    isSpacePy c = false := by
  by_contra hc
  rw [Bool.not_eq_false] at hc
  simp [wsM, List.takeWhile_cons, hc] at h

theorem wsM_cons_space {c : Char} (rest : List Char) (h : isSpacePy c = true) :
    wsM (c :: rest) = some ((rest.takeWhile isSpacePy).length + 1) := by
  simp [wsM, List.takeWhile_cons, h]

/-- Whitespace normal form: every whitespace character is a single space not
followed by further whitespace. -/
def wsNormal : List Char → Prop
  | [] => True
  | c :: l =>
    (isSpacePy c = true → c = ' ' ∧ ∀ d t, l = d :: t → isSpacePy d = false) ∧ wsNormal l

theorem wsNormal_nil : wsNormal [] := trivial

theorem wsNormal_tail {c : Char} {l : List Char} (h : wsNormal (c :: l)) : wsNormal l :=
  h.2

theorem wsNormal_cons_not {c : Char} {l : List Char} (hc : isSpacePy c = false)
    (hl : wsNormal l) : wsNormal (c :: l) :=
  ⟨fun h => absurd h (by simp [hc]), hl⟩

theorem wsNormal_cons_sp {l : List Char}
    (hnext : ∀ d t, l = d :: t → isSpacePy d = false) (hl : wsNormal l) :
    wsNormal (' ' :: l) :=
  ⟨fun _ => ⟨rfl, hnext⟩, hl⟩

/-- The whitespace-collapse pass produces whitespace normal form. -/
theorem wsNormal_reSub_ws :
    ∀ (s : List Char) (skip : Nat), wsNormal (reSubC wsM [' '] skip s) := by
  intro s
  induction s with
  | nil => intro skip; cases skip <;> exact wsNormal_nil
  | cons c rest ih =>
    intro skip
    cases skip with
    | succ j => rw [reSubC_succ]; exact ih j
    | zero =>
      cases hm : wsM (c :: rest) with
      | none =>
        rw [reSubC_zero_none hm]
        exact wsNormal_cons_not (wsM_none_head hm) (ih 0)
      | some k =>
        rw [reSubC_zero_some hm]
        rw [show ([' '] ++ reSubC wsM [' '] (k - 1) rest) =
          ' ' :: reSubC wsM [' '] (k - 1) rest from rfl]
        refine wsNormal_cons_sp ?_ (ih (k - 1))
        intro d t hdt
        have hk := wsM_some_eq hm
        have hk1 : 1 ≤ k := by
          rw [hk, List.takeWhile_cons,
            show isSpacePy c = true from by
              by_contra hc
              rw [Bool.not_eq_true] at hc
              rw [wsM_of_not_space rest hc] at hm
              cases hm]
          simp
        have heq : reSubC wsM [' '] (k - 1) rest =
            reSubC wsM [' '] 0 ((c :: rest).dropWhile isSpacePy) := by
          rw [reSubC_eq_drop]
          rw [show (rest.drop (k - 1)) = (c :: rest).drop k from by
            obtain ⟨k', rfl⟩ : ∃ k', k = k' + 1 := ⟨k - 1, by omega⟩
            rw [Nat.add_sub_cancel, List.drop_succ_cons]]
          rw [hk, drop_takeWhile_length]
          rfl
        rw [heq] at hdt
        cases hdw : (c :: rest).dropWhile isSpacePy with
        | nil => rw [hdw] at hdt; cases hdt
        | cons e u =>
          have he : isSpacePy e = false := dropWhile_head_false hdw
          rw [hdw, reSubC_zero_none (wsM_of_not_space u he)] at hdt
          injection hdt with h1 _
          rw [← h1]
          exact he

/-- The whitespace-collapse pass is the identity on whitespace normal form. -/
theorem ws_id : ∀ {s : List Char}, wsNormal s → reSub wsM [' '] s = s := by
  intro s
  induction s with
  | nil => intro _; rfl
  | cons c rest ih =>
    intro h
    by_cases hc : isSpacePy c = true
    · obtain ⟨hsp, hnext⟩ := h.1 hc
      have htw : rest.takeWhile isSpacePy = [] := by
        cases rest with
        | nil => rfl
        | cons d t => rw [List.takeWhile_cons, hnext d t rfl]; rfl
      have hm : wsM (c :: rest) = some 1 := by
        rw [wsM_cons_space rest hc, htw]
        rfl
      rw [reSub_cons_some hm]
      simp only [Nat.sub_self, List.drop_zero]
      rw [ih (wsNormal_tail h), hsp]
      rfl
    · rw [Bool.not_eq_true] at hc
      rw [reSub_cons_none (wsM_of_not_space rest hc), ih (wsNormal_tail h)]

theorem wsNormal_dropWhile (p : Char → Bool) :
    ∀ {s : List Char}, wsNormal s → wsNormal (s.dropWhile p) := by
  intro s
  induction s with
  | nil => intro _; exact wsNormal_nil
  | cons c rest ih =>
    intro h
    rw [List.dropWhile_cons]
    by_cases hp : p c
    · simpa [hp] using ih (wsNormal_tail h)
    · simpa [hp] using h

theorem wsNormal_append_left {v : List Char} :
    ∀ {a : List Char}, wsNormal (a ++ v) → wsNormal a := by
  intro a
  induction a with
  | nil => intro _; exact wsNormal_nil
  | cons c a' ih =>
    intro h
    refine ⟨?_, ih (wsNormal_tail h)⟩
    intro hc
    obtain ⟨hsp, hnext⟩ := h.1 hc
    refine ⟨hsp, ?_⟩
    intro d t hdt
    exact hnext d (t ++ v) (by rw [hdt]; rfl)

theorem wsNormal_pyStrip {s : List Char} (h : wsNormal s) : wsNormal (pyStrip s) := by
  have h1 : wsNormal (lstripPy s) := wsNormal_dropWhile isSpacePy h
  obtain ⟨v, hv⟩ := rstripPy_decomp (lstripPy s)
  exact wsNormal_append_left (hv ▸ h1)

/-- No leading character of the list is whitespace. -/
def headNotSpace (l : List Char) : Prop :=
  ∀ c t, l = c :: t → isSpacePy c = false

theorem headNotSpace_dropWhile (l : List Char) :
    headNotSpace (l.dropWhile isSpacePy) := by
  intro c t h
  exact dropWhile_head_false h

theorem dropWhile_id_of_head {l : List Char} (h : headNotSpace l) :
    l.dropWhile isSpacePy = l := by
  cases l with
  | nil => rfl
  | cons c t => rw [List.dropWhile_cons, h c t rfl]; rfl

/-- Trimming is the identity when both ends are free of whitespace. -/
theorem strip_id {s : List Char} (h1 : headNotSpace s) (h2 : headNotSpace s.reverse) :
    pyStrip s = s := by
  unfold pyStrip lstripPy rstripPy
  rw [dropWhile_id_of_head h1, dropWhile_id_of_head h2, List.reverse_reverse]

theorem pyStrip_headNotSpace (s : List Char) : headNotSpace (pyStrip s) := by
  intro c t h
  obtain ⟨v, hv⟩ := rstripPy_decomp (lstripPy s)
  have hps : rstripPy (lstripPy s) = c :: t := h
  have : lstripPy s = c :: (t ++ v) := by
    rw [hv, hps]
    rfl
  exact headNotSpace_dropWhile s c (t ++ v) this

theorem pyStrip_rev_headNotSpace (s : List Char) : headNotSpace (pyStrip s).reverse := by
  have : (pyStrip s).reverse = (lstripPy s).reverse.dropWhile isSpacePy := by
    unfold pyStrip rstripPy
    rw [List.reverse_reverse]
  rw [this]
  exact headNotSpace_dropWhile _

/-- The output of `clean_text` is in whitespace normal form and trimmed. -/
theorem clean_text_normal (text : List Char) (f : Bool) :
    wsNormal (clean_text text f) ∧ headNotSpace (clean_text text f) ∧
      headNotSpace (clean_text text f).reverse := by
  by_cases ht : text = []
  · subst ht
    rw [clean_text_nil]
    refine ⟨wsNormal_nil, ?_, ?_⟩ <;> (intro c t h; simp at h)
  · have key : ∀ u : List Char,
        wsNormal (pyStrip (reSub wsM [' '] u)) ∧
          headNotSpace (pyStrip (reSub wsM [' '] u)) ∧
            headNotSpace (pyStrip (reSub wsM [' '] u)).reverse := by
      intro u
      exact ⟨wsNormal_pyStrip (wsNormal_reSub_ws u 0), pyStrip_headNotSpace _,
        pyStrip_rev_headNotSpace _⟩
    cases f with
    | false => rw [clean_text_eq_false text ht]; exact key _
    | true => rw [clean_text_eq_true text ht]; exact key _

/-!  Counting inequalities: every `\d+%` and every `\$\d+` match contains a
digit run that the `\d+` scan also counts. -/

theorem numM_none {c : Char} (rest : List Char) (h : Char.isDigit c = false) :
    numM (c :: rest) = none := by
  simp [numM, List.takeWhile_cons, h]

theorem numM_fires {c : Char} (rest : List Char) (h : Char.isDigit c = true) :
    numM (c :: rest) = some ((rest.takeWhile Char.isDigit).length + 1) := by
  simp [numM, List.takeWhile_cons, h]

theorem pctM_none_of_not {c : Char} (rest : List Char) (h : Char.isDigit c = false) :
    pctM (c :: rest) = none := by
  simp [pctM, List.takeWhile_cons, h]

theorem pctM_none_of_nopct {c : Char} (rest : List Char)
    (hp : ¬((c :: rest).dropWhile Char.isDigit).head? = some '%') :
    pctM (c :: rest) = none := by
  unfold pctM
  refine if_neg ?_
  intro hcond
  refine hp ?_
  rw [← drop_takeWhile_length]
  exact hcond.2

theorem pctM_fires {c : Char} (rest : List Char) (hc : Char.isDigit c = true)
    (hp : ((c :: rest).dropWhile Char.isDigit).head? = some '%') :
    pctM (c :: rest) = some ((rest.takeWhile Char.isDigit).length + 1 + 1) := by
  unfold pctM
  rw [if_pos ?_]
  · rw [List.takeWhile_cons, if_pos hc]
    rfl
  · constructor
    · rw [List.takeWhile_cons, if_pos hc]
      simp
    · rw [drop_takeWhile_length]
      exact hp

theorem priceM_not_dollar {c : Char} (rest : List Char) (h : ¬c = '$') :
    priceM (c :: rest) = none := by
  simp [priceM, h]

theorem priceM_dollar_none (rest : List Char)
    (h : (rest.takeWhile Char.isDigit).length = 0) :
    priceM ('$' :: rest) = none := by
  simp [priceM, h]

theorem priceM_dollar_some (rest : List Char)
    (h : ¬(rest.takeWhile Char.isDigit).length = 0) :
    priceM ('$' :: rest) = some ((rest.takeWhile Char.isDigit).length + 1) := by
  simp [priceM, h]

theorem digit_ne_dollar {c : Char} (h : Char.isDigit c = true) : ¬c = '$' := by
  intro hc
  rw [hc] at h
  exact absurd h (by decide)

/-- Scanning `\d+%` through a digit run that is not closed by `%` finds
nothing inside the run. -/
theorem cntPct_digits :
    ∀ u : List Char, ¬(u.dropWhile Char.isDigit).head? = some '%' →
      countCF pctM u = countCF pctM (u.dropWhile Char.isDigit) := by
  intro u
  induction u with
  | nil => intro _; rfl
  | cons c rest ih =>
    intro hnp
    by_cases hc : Char.isDigit c = true
    · have hdw : (c :: rest).dropWhile Char.isDigit = rest.dropWhile Char.isDigit := by
        rw [List.dropWhile_cons, if_pos hc]
      rw [hdw] at hnp ⊢
      rw [countCF_cons_none (pctM_none_of_nopct rest (by rw [List.dropWhile_cons, if_pos hc]; exact hnp))]
      exact ih hnp
    · rw [List.dropWhile_cons, if_neg hc]

/-- Scanning `\$\d+` never starts inside a digit run. -/
theorem cntPrice_digits :
    ∀ u : List Char, countCF priceM u = countCF priceM (u.dropWhile Char.isDigit) := by
  intro u
  induction u with
  | nil => rfl
  | cons c rest ih =>
    by_cases hc : Char.isDigit c = true
    · rw [List.dropWhile_cons, if_pos hc,
        countCF_cons_none (priceM_not_dollar rest (digit_ne_dollar hc))]
      exact ih
    · rw [List.dropWhile_cons, if_neg hc]

theorem cnt_pct_le_num :
    ∀ (n : Nat) (s : List Char), s.length ≤ n → countCF pctM s ≤ countCF numM s := by
  intro n
  induction n with
  | zero =>
    intro s hs
    rw [List.eq_nil_of_length_eq_zero (Nat.le_zero.mp hs)]
    exact Nat.le_refl _
  | succ n ih =>
    intro s hs
    cases s with
    | nil => exact Nat.le_refl _
    | cons c rest =>
      have hrest : rest.length ≤ n := by
        rw [List.length_cons] at hs
        omega
      by_cases hc : Char.isDigit c = true
      · have hnum := numM_fires rest hc
        rw [countCF_cons_some hnum, Nat.add_sub_cancel, drop_takeWhile_length]
        by_cases hp : ((c :: rest).dropWhile Char.isDigit).head? = some '%'
        · have hdw : (c :: rest).dropWhile Char.isDigit = rest.dropWhile Char.isDigit := by
            rw [List.dropWhile_cons, if_pos hc]
          rw [hdw] at hp
          obtain ⟨t', ht'⟩ : ∃ t', rest.dropWhile Char.isDigit = '%' :: t' := by
            cases hd : rest.dropWhile Char.isDigit with
            | nil => rw [hd] at hp; cases hp
            | cons e u =>
              rw [hd] at hp
              simp at hp
              exact ⟨u, by rw [hp]⟩
          rw [countCF_cons_some (pctM_fires rest hc (by rw [hdw]; exact hp))]
          have hdrop : rest.drop ((rest.takeWhile Char.isDigit).length + 1 + 1 - 1) = t' := by
            rw [Nat.add_sub_cancel, ← List.drop_drop, drop_takeWhile_length, ht']
            rfl
          rw [hdrop, ht', countCF_cons_none (numM_none t' (by decide))]
          have := ih t' (by
            have h1 : t'.length + 1 = (rest.dropWhile Char.isDigit).length := by
              rw [ht']
              rfl
            have h2 : (rest.dropWhile Char.isDigit).length ≤ rest.length := by
              rw [← drop_takeWhile_length]
              simp
            omega)
          omega
        · rw [countCF_cons_none (pctM_none_of_nopct rest hp)]
          have hdw : (c :: rest).dropWhile Char.isDigit = rest.dropWhile Char.isDigit := by
            rw [List.dropWhile_cons, if_pos hc]
          rw [hdw] at hp
          rw [cntPct_digits rest hp]
          have := ih (rest.dropWhile Char.isDigit) (by
            have : (rest.dropWhile Char.isDigit).length ≤ rest.length := by
              rw [← drop_takeWhile_length]
              simp
            omega)
          omega
      · rw [Bool.not_eq_true] at hc
        rw [countCF_cons_none (pctM_none_of_not rest hc),
          countCF_cons_none (numM_none rest hc)]
        exact ih rest hrest

theorem cnt_price_le_num :
    ∀ (n : Nat) (s : List Char), s.length ≤ n → countCF priceM s ≤ countCF numM s := by
  intro n
  induction n with
  | zero =>
    intro s hs
    rw [List.eq_nil_of_length_eq_zero (Nat.le_zero.mp hs)]
    exact Nat.le_refl _
  | succ n ih =>
    intro s hs
    cases s with
    | nil => exact Nat.le_refl _
    | cons c rest =>
      have hrest : rest.length ≤ n := by
        rw [List.length_cons] at hs
        omega
      have hdwlen : (rest.dropWhile Char.isDigit).length ≤ rest.length := by
        rw [← drop_takeWhile_length]
        simp
      by_cases hc : c = '$'
      · subst hc
        by_cases hr : (rest.takeWhile Char.isDigit).length = 0
        · rw [countCF_cons_none (priceM_dollar_none rest hr),
            countCF_cons_none (numM_none rest (by decide))]
          exact ih rest hrest
        · rw [countCF_cons_some (priceM_dollar_some rest hr), Nat.add_sub_cancel,
            drop_takeWhile_length, countCF_cons_none (numM_none rest (by decide))]
          obtain ⟨d, t, hdt, hd⟩ := takeWhile_length_pos
            (p := Char.isDigit) (l := rest) (by omega)
          rw [hdt]
          rw [show (d :: t).dropWhile Char.isDigit = t.dropWhile Char.isDigit from by
            rw [List.dropWhile_cons, if_pos hd]]
          rw [countCF_cons_some (numM_fires t hd), Nat.add_sub_cancel,
            drop_takeWhile_length]
          have hlt : t.length ≤ n := by
            rw [hdt, List.length_cons] at hrest
            omega
          have hlt2 : (t.dropWhile Char.isDigit).length ≤ t.length := by
            rw [← drop_takeWhile_length]
            simp
          have := ih (t.dropWhile Char.isDigit) (by omega)
          omega
      · by_cases hcd : Char.isDigit c = true
        · rw [countCF_cons_some (numM_fires rest hcd), Nat.add_sub_cancel,
            drop_takeWhile_length, countCF_cons_none (priceM_not_dollar rest hc)]
          rw [cntPrice_digits rest]
          have := ih (rest.dropWhile Char.isDigit) (by omega)
          omega
        · rw [Bool.not_eq_true] at hcd
          rw [countCF_cons_none (priceM_not_dollar rest hc),
            countCF_cons_none (numM_none rest hcd)]
          exact ih rest hrest

/-!  Support for the remaining claims: splitting, lower-casing, buzzwords. -/

theorem char_toNat_ofNat {n : Nat} (h : n < 55296) : (Char.ofNat n).toNat = n := by
  unfold Char.ofNat
  rw [dif_pos (Or.inl h)]
  rfl

theorem pyLower_idem (c : Char) : pyLower (pyLower c) = pyLower c := by
  unfold pyLower
  by_cases h : 65 ≤ c.toNat ∧ c.toNat ≤ 90
  · rw [if_pos h]
    have ht : (Char.ofNat (c.toNat + 32)).toNat = c.toNat + 32 :=
      char_toNat_ofNat (by omega)
    rw [if_neg (by omega)]
  · rw [if_neg h, if_neg h]

theorem pySplitP_ne_nil (p : Char → Bool) : ∀ s : List Char, pySplitP p s ≠ [] := by
  intro s
  induction s with
  | nil => simp [pySplitP]
  | cons c rest ih =>
    unfold pySplitP
    by_cases hp : p c
    · simp [hp]
    · rw [if_neg hp]
      cases hps : pySplitP p rest with
      | nil => simp
      | cons r rs => simp

theorem pySplitP_cons_pos {p : Char → Bool} {c : Char} (rest : List Char)
    (hp : p c = true) : pySplitP p (c :: rest) = [] :: pySplitP p rest := by
  simp only [pySplitP]
  rw [if_pos hp]

theorem pySplitP_cons_neg {p : Char → Bool} {c : Char} {rest : List Char}
    {r : List Char} {rs : List (List Char)} (hp : p c = false)
    (h : pySplitP p rest = r :: rs) :
    pySplitP p (c :: rest) = (c :: r) :: rs := by
  unfold pySplitP
  rw [if_neg (by simp [hp]), h]

theorem mem_of_mem_pySplitP (p : Char → Bool) :
    ∀ (s : List Char) (w : List Char), w ∈ pySplitP p s → ∀ c ∈ w, c ∈ s := by
  intro s
  induction s with
  | nil =>
    intro w hw c hc
    simp [pySplitP] at hw
    subst hw
    simp at hc
  | cons a rest ih =>
    intro w hw c hc
    by_cases hpa : p a = true
    · rw [pySplitP_cons_pos rest hpa] at hw
      rcases List.mem_cons.mp hw with hw | hw
      · subst hw; simp at hc
      · exact List.mem_cons_of_mem _ (ih w hw c hc)
    · cases hps : pySplitP p rest with
      | nil => exact absurd hps (pySplitP_ne_nil p rest)
      | cons r rs =>
        rw [Bool.not_eq_true] at hpa
        rw [pySplitP_cons_neg hpa hps] at hw
        rcases List.mem_cons.mp hw with hw | hw
        · subst hw
          rcases List.mem_cons.mp hc with hc | hc
          · exact hc ▸ List.mem_cons_self _ _
          · exact List.mem_cons_of_mem _ (ih r (by rw [hps]; exact List.mem_cons_self _ _) c hc)
        · exact List.mem_cons_of_mem _ (ih w (by rw [hps]; exact List.mem_cons_of_mem _ hw) c hc)

theorem map_pyLower_fix : ∀ {w : List Char}, (∀ c ∈ w, pyLower c = c) →
    w.map pyLower = w := by
  intro w
  induction w with
  | nil => intro _; rfl
  | cons c t ih =>
    intro h
    rw [List.map_cons, h c (List.mem_cons_self _ _),
      ih (fun d hd => h d (List.mem_cons_of_mem _ hd))]

theorem pyStrip_eq_nil_iff (s : List Char) :
    pyStrip s = [] ↔ ∀ c ∈ s, isSpacePy c = true := by
  unfold pyStrip rstripPy lstripPy
  constructor
  · intro h c hc
    have h1 : (s.dropWhile isSpacePy).reverse.dropWhile isSpacePy = [] := by
      by_contra hne
      exact hne (by
        have := congrArg List.reverse h
        simpa using this)
    have h2 : ∀ d ∈ (s.dropWhile isSpacePy).reverse, isSpacePy d = true :=
      List.dropWhile_eq_nil_iff.mp h1
    have h3 : ∀ d ∈ s.dropWhile isSpacePy, isSpacePy d = true := by
      intro d hd
      exact h2 d (by simpa using hd)
    have hs := List.takeWhile_append_dropWhile isSpacePy s
    rw [← hs] at hc
    rcases List.mem_append.mp hc with hc | hc
    · exact List.mem_takeWhile_imp hc
    · exact h3 c hc
  · intro h
    have h1 : s.dropWhile isSpacePy = [] :=
      List.dropWhile_eq_nil_iff.mpr h
    rw [h1]
    rfl

theorem length_scanListCtx (m : Option Char → List Char → Option Nat) :
    ∀ (s : List Char) (prev : Option Char) (skip : Nat),
      (scanListCtx m prev skip s).length = scanCtx m prev skip s := by
  intro s
  induction s with
  | nil => intro prev skip; cases skip <;> rfl
  | cons c rest ih =>
    intro prev skip
    cases skip with
    | succ j => exact ih (some c) j
    | zero =>
      rw [show scanListCtx m prev 0 (c :: rest) =
        (match m prev (c :: rest) with
         | some k => (c :: rest).take k :: scanListCtx m (some c) (k - 1) rest
         | none => scanListCtx m (some c) 0 rest) from rfl]
      rw [show scanCtx m prev 0 (c :: rest) =
        (match m prev (c :: rest) with
         | some k => 1 + scanCtx m (some c) (k - 1) rest
         | none => scanCtx m (some c) 0 rest) from rfl]
      cases hm : m prev (c :: rest) with
      | some k =>
        show ((c :: rest).take k :: scanListCtx m (some c) (k - 1) rest).length =
          1 + scanCtx m (some c) (k - 1) rest
        rw [List.length_cons, ih (some c) (k - 1)]
        omega
      | none =>
        show (scanListCtx m (some c) 0 rest).length = scanCtx m (some c) 0 rest
        exact ih (some c) 0

/-!  The claims. -/

/-- Claim C1, counterexample: `analyze_sentiment_indicators` on the string
`This is amazing and terrible, act now` does not return urgency 1 — the urgency
word lists (urgent/immediate/asap/quickly/fast/rapid, deadline/expires/limited/
ending/final) match nothing in this text, so the claimed triple (1, 1, 1) is
wrong. -/
theorem claim_C1_counterexample :
    ¬((analyze_sentiment_indicators ("This is amazing and terrible, act now").toList).positive_count = 1 ∧
      (analyze_sentiment_indicators ("This is amazing and terrible, act now").toList).negative_count = 1 ∧
      (analyze_sentiment_indicators ("This is amazing and terrible, act now").toList).urgency_count = 1) := by
  decide

/-- Claim C1, amended: on the string `This is amazing and terrible, act now`
the function returns positive 1, negative 1 and urgency 0 (`act now` is a CTA
phrase, not an urgency sentiment word). -/
theorem claim_C1_amended :
    (analyze_sentiment_indicators ("This is amazing and terrible, act now").toList).positive_count = 1 ∧
    (analyze_sentiment_indicators ("This is amazing and terrible, act now").toList).negative_count = 1 ∧
    (analyze_sentiment_indicators ("This is amazing and terrible, act now").toList).urgency_count = 0 := by
  decide

/-- Claim C2: for every input, the cleaned text (emoji removal at its default
`false`) contains no substring matching the HTML tag pattern `<[^>]+>` and no
substring matching the `http[s]?://…` URL pattern of the cleaner. -/
theorem claim_C2 (text : List Char) :
    hasMatchB tagM (clean_text text false) = false ∧
      hasMatchB urlM (clean_text text false) = false :=
  ⟨clean_noTag text false, clean_noUrl text⟩

/-- Claim C3, counterexample: on the text consisting of a space and a period,
the code's `sentence_count` is 0, while the number of non-empty segments of the
period split (the spec's wording, `specSentenceCount`) is 1 — the code also
discards segments that are blank after stripping. -/
theorem claim_C3_counterexample :
    ¬((extract_features ((" .").toList)).sentence_count =
      specSentenceCount ((" .").toList)) := by
  decide

/-- Claim C3, amended: `sentence_count` equals the number of segments of the
period split that contain at least one non-whitespace character. -/
theorem claim_C3_amended (text : List Char) :
    (extract_features text).sentence_count =
      ((pySplitP (fun c => c = '.') text).filter
        (fun seg => seg.any (fun c => !isSpacePy c))).length := by
  show ((pySplitP (fun c => c = '.') text).filter
    (fun s => !(pyStrip s).isEmpty)).length = _
  refine congrArg List.length (List.filter_congr ?_)
  intro seg _
  by_cases h : seg.any (fun c => !isSpacePy c) = true
  · rw [h]
    obtain ⟨x, hx, hxs⟩ := List.any_eq_true.mp h
    have hnil : ¬(pyStrip seg = []) := by
      intro hnil
      have := (pyStrip_eq_nil_iff seg).mp hnil x hx
      rw [this] at hxs
      simp at hxs
    simp [List.isEmpty_iff, hnil]
  · rw [Bool.not_eq_true] at h
    rw [h]
    have hall : ∀ c ∈ seg, isSpacePy c = true := by
      intro c hc
      by_contra hw
      rw [Bool.not_eq_true] at hw
      have : seg.any (fun c => !isSpacePy c) = true :=
        List.any_eq_true.mpr ⟨c, hc, by rw [hw]; rfl⟩
      rw [this] at h
      cases h
    have := (pyStrip_eq_nil_iff seg).mpr hall
    simp [this]

/-- Claim C4: the embedding is total (no operation can raise), and on the empty
string `clean_text` returns the empty string while `extract_features` returns
the all-zero feature record with `caps_ratio = 0`. -/
theorem claim_C4 (f : Bool) :
    clean_text [] f = [] ∧ extract_features [] =
      { word_count := 0, char_count := 0, sentence_count := 0, all_caps_words := 0,
        caps_ratio := 0, exclamation_count := 0, question_count := 0,
        emoji_count := 0, number_count := 0, percentage_mentions := 0,
        price_mentions := 0, cta_signals := 0 } :=
  ⟨clean_text_nil f, by decide⟩

/-- Claim C5: `caps_ratio` is the number of uppercase characters divided by the
length for non-empty text, 0 for empty text, and always lies in [0, 1]. -/
theorem claim_C5 (text : List Char) :
    (extract_features text).caps_ratio =
      (if text = [] then 0 else (text.countP Char.isUpper : ℚ) / (text.length : ℚ)) ∧
    0 ≤ (extract_features text).caps_ratio ∧ (extract_features text).caps_ratio ≤ 1 := by
  refine ⟨rfl, ?_, ?_⟩
  · show (0 : ℚ) ≤
      (if text = [] then 0 else (text.countP Char.isUpper : ℚ) / (text.length : ℚ))
    by_cases h : text = []
    · rw [if_pos h]
    · rw [if_neg h]
      exact div_nonneg (by positivity) (by positivity)
  · show (if text = [] then 0 else (text.countP Char.isUpper : ℚ) / (text.length : ℚ)) ≤ 1
    by_cases h : text = []
    · rw [if_pos h]
      norm_num
    · rw [if_neg h]
      have hlen : (0 : ℚ) < (text.length : ℚ) := by
        exact_mod_cast List.length_pos.mpr h
      rw [div_le_one hlen]
      exact_mod_cast List.countP_le_length Char.isUpper

/-- Claim C6: every buzzword is at least the minimum length, is fixed by
lower-casing, is not a stop word, and the returned collection has no
duplicates. -/
theorem claim_C6 (text : List Char) (n : Nat) :
    (∀ w ∈ extract_buzzwords text n,
        n ≤ w.length ∧ w.map pyLower = w ∧ w ∉ common_words) ∧
      (extract_buzzwords text n).Nodup := by
  constructor
  · intro w hw
    have hw' : w ∈ (pyWords ((text.filter (fun c => !isPunctPy c)).map pyLower)).filter
        (fun w => decide (n ≤ w.length) && !(decide (w ∈ common_words))) := by
      rw [← List.mem_dedup]
      exact hw
    rw [List.mem_filter] at hw'
    obtain ⟨hmem, hcond⟩ := hw'
    rw [Bool.and_eq_true] at hcond
    obtain ⟨h1, h2⟩ := hcond
    refine ⟨of_decide_eq_true h1, ?_, by simpa using h2⟩
    refine map_pyLower_fix ?_
    intro c hc
    have hw2 : w ∈ pySplitP isSpacePy ((text.filter (fun c => !isPunctPy c)).map pyLower) :=
      (List.mem_filter.mp hmem).1
    have hcmem := mem_of_mem_pySplitP isSpacePy _ w hw2 c hc
    rw [List.mem_map] at hcmem
    obtain ⟨d, -, hd⟩ := hcmem
    rw [← hd, pyLower_idem]
  · exact List.nodup_dedup _

/-- Claim C6, witness: on `The Quick Brown Fox` with minimum length 3, the
buzzword `quick` satisfies all the guarantees, and the output has no
duplicates. -/
theorem claim_C6_witness :
    (3 ≤ ("quick").toList.length ∧ ("quick").toList.map pyLower = ("quick").toList ∧
      ("quick").toList ∉ common_words) ∧
      (extract_buzzwords (("The Quick Brown Fox").toList) 3).Nodup := by
  have h := claim_C6 (("The Quick Brown Fox").toList) 3
  exact ⟨h.1 (("quick").toList) (by decide), h.2⟩

/-- Claim C7: `extract_cta_text` returns exactly the concatenation of the three
phrase groups' match lists in group order and scan order, and its length is the
total number of matches (every occurrence retained, no deduplication). -/
theorem claim_C7 (text : List Char) :
    extract_cta_text text =
      findAllCtx (wordAltM ctaPhrases1) text ++ findAllCtx (wordAltM ctaPhrases2) text ++
        findAllCtx (wordAltM ctaPhrases3) text ∧
    (extract_cta_text text).length =
      countCtx (wordAltM ctaPhrases1) text + countCtx (wordAltM ctaPhrases2) text +
        countCtx (wordAltM ctaPhrases3) text := by
  have h1 : extract_cta_text text =
      findAllCtx (wordAltM ctaPhrases1) text ++ findAllCtx (wordAltM ctaPhrases2) text ++
        findAllCtx (wordAltM ctaPhrases3) text := by
    simp [extract_cta_text, List.append_assoc]
  refine ⟨h1, ?_⟩
  rw [h1, List.length_append, List.length_append]
  show (scanListCtx (wordAltM ctaPhrases1) none 0 text).length +
      (scanListCtx (wordAltM ctaPhrases2) none 0 text).length +
      (scanListCtx (wordAltM ctaPhrases3) none 0 text).length = _
  rw [length_scanListCtx, length_scanListCtx, length_scanListCtx]
  rfl

/-- Claim C8: the feature dictionary has exactly the twelve documented keys, in
insertion order. -/
theorem claim_C8 (text : List Char) :
    (featuresToDict (extract_features text)).map Prod.fst = featureKeys := rfl

/-- Claim C9, counterexample: with emoji removal enabled, cleaning is not
idempotent — on `ht😀tp://x` (the emoji written as code point 128512) the first
pass deletes only the emoji, producing `http://x`, which the second pass then
deletes as a URL. -/
theorem claim_C9_counterexample :
    ¬(clean_text (clean_text ('h' :: 't' :: Char.ofNat 128512 :: 't' :: 'p' :: ':' ::
        '/' :: '/' :: 'x' :: []) true) true =
      clean_text ('h' :: 't' :: Char.ofNat 128512 :: 't' :: 'p' :: ':' :: '/' :: '/' ::
        'x' :: []) true) := by
  decide

/-- Claim C9, amended: with emoji removal at its default `false`, `clean_text`
is idempotent. -/
theorem claim_C9_amended (text : List Char) :
    clean_text (clean_text text false) false = clean_text text false := by
  by_cases ho : clean_text text false = []
  · rw [ho, clean_text_nil]
  · rw [clean_text_eq_false (clean_text text false) ho]
    obtain ⟨hwn, hh, hr⟩ := clean_text_normal text false
    rw [reSub_id (clean_noTag text false), reSub_id (clean_noUrl text), ws_id hwn,
      strip_id hh hr]

/-- Claim C10: percentage mentions and price mentions never exceed the digit-run
count. -/
theorem claim_C10 (text : List Char) :
    (extract_features text).percentage_mentions ≤ (extract_features text).number_count ∧
      (extract_features text).price_mentions ≤ (extract_features text).number_count :=
  ⟨cnt_pct_le_num text.length text (Nat.le_refl _),
   cnt_price_le_num text.length text (Nat.le_refl _)⟩
